import Mathlib

/-!
Verification of the exhaustive TSP solver in `program/TSPproblem.py`.

The Python program defines a `TSPProblem` (list of cities, a nested-dict
distance table, a designated start city) and `tsp_solver`, which enumerates
all permutations of the city list with `itertools.permutations`, skips the
ones whose first element is not the start city, closes each survivor into a
round trip by appending the start city, sums the directional distance-table
lookups along consecutive pairs, and keeps the first tour attaining the
running minimum (strict `<` comparison).

Embedding choices:
* cities are an arbitrary type `α` with decidable equality (opaque hashable
  identifiers in Python);
* the distance table is `α → α → Option ℚ`: `none` models a `KeyError` on a
  missing dict entry;
* a tuple index error (`perm[0]` on the empty tuple) and a `KeyError` during
  cost summation abort the solve, so the solver returns
  `Option (Option (List α) × WithTop ℚ)`: the outer `none` is an uncaught
  exception, the inner pair is Python's `(best_path, min_cost)` with
  `min_cost` starting at `math.inf` (`⊤`);
* `permutationsIt` reproduces `itertools.permutations`: element at each index
  is chosen first, the remaining elements keep their relative order, giving
  index-lexicographic enumeration order.
-/

/-- One selection step of `itertools.permutations`: all ways to pick one
element of the list (in index order) paired with the remaining elements in
their original relative order. -/
def selections {α : Type} : List α → List (α × List α)
  | [] => []
  | x :: xs => (x, xs) :: (selections xs).map (fun p => (p.1, x :: p.2))

/-- Every selected remainder is one element shorter than the list. -/
lemma selections_length_snd {α : Type} :
    ∀ (l : List α), ∀ p ∈ selections l, p.2.length + 1 = l.length := by
  intro l
  induction l with
  | nil => intro p hp; simp [selections] at hp
  | cons x xs ih =>
    intro p hp
    simp only [selections, List.mem_cons, List.mem_map] at hp
    rcases hp with rfl | ⟨q, hq, rfl⟩
    · simp
    · simpa using ih q hq

/-- Recursion core of `permutationsIt`, structurally recursive on a fuel
argument that is always instantiated with the list's length. -/
def permsAux {α : Type} : ℕ → List α → List (List α)
  | 0, _ => [[]]
  | n + 1, l =>
    (selections l).flatMap (fun p => (permsAux n p.2).map (fun q => p.1 :: q))

/-- Model of `itertools.permutations`: all permutations of the list, in the
index-lexicographic order Python produces them. -/
def permutationsIt {α : Type} (l : List α) : List (List α) :=
  permsAux l.length l

/-- The Python problem object: city list, distance table, start city. -/
structure TSPProblem (α : Type) where
  cities : List α
  distances : α → α → Option ℚ
  initial : α

/-- `TSPProblem.actions`: the cities of the city list not yet present in the
partial route (`[city for city in self.cities if city not in visited]`). -/
def TSPProblem.actions {α : Type} [DecidableEq α] (pb : TSPProblem α)
    (state : List α) : List α :=
  pb.cities.filter (fun c => decide (c ∉ state))

/-- `TSPProblem.result`: append the chosen city to the route. -/
def TSPProblem.result {α : Type} (pb : TSPProblem α) (state : List α)
    (action : α) : List α :=
  state ++ [action]

/-- `TSPProblem.is_goal`: all cities visited and returned to the first. -/
def TSPProblem.is_goal {α : Type} [DecidableEq α] (pb : TSPProblem α)
    (state : List α) : Prop :=
  state.length = pb.cities.length + 1 ∧ state.head? = state.getLast?

/-- `TSPProblem.action_cost`: distance from the route's last city to the
action; `none` models an index error on an empty route or a `KeyError`. -/
def TSPProblem.action_cost {α : Type} (pb : TSPProblem α) (s : List α)
    (a : α) : Option ℚ :=
  s.getLast?.bind (fun x => pb.distances x a)

/-- `TSPProblem.h`: the heuristic stub, always 0. -/
def TSPProblem.h {α : Type} (pb : TSPProblem α) (node : List α) : ℚ := 0

/-- Tour cost, translated from
`sum(problem.distances[path[i]][path[i + 1]] for i in range(len(path) - 1))`:
sum the directional lookups over consecutive pairs, `none` on any missing
entry (a dict `KeyError`). -/
def tourCost {α : Type} (dist : α → α → Option ℚ) : List α → Option ℚ
  | x :: y :: rest =>
    match dist x y, tourCost dist (y :: rest) with
    | some c, some r => some (c + r)
    | _, _ => none
  | _ => some 0

/-- One iteration of the solver loop on permutation `perm`, from accumulator
`acc = (best_path, min_cost)`.  `none` is an uncaught Python exception:
`perm[0]` on an empty tuple, or a `KeyError` in the cost sum. -/
def solverStep {α : Type} [DecidableEq α] (dist : α → α → Option ℚ)
    (start : α) (acc : Option (List α) × WithTop ℚ) (perm : List α) :
    Option (Option (List α) × WithTop ℚ) :=
  match perm with
  | [] => none
  | p0 :: rest =>
    if p0 ≠ start then some acc
    else
      match tourCost dist (p0 :: rest ++ [start]) with
      | none => none
      | some c =>
        if (c : WithTop ℚ) < acc.2 then
          some (some (p0 :: rest ++ [start]), (c : WithTop ℚ))
        else some acc

/-- The solver's `for perm in permutations(...)` loop with early abort on an
exception. -/
def solverLoop {α : Type} [DecidableEq α] (dist : α → α → Option ℚ)
    (start : α) : List (List α) → Option (List α) × WithTop ℚ →
    Option (Option (List α) × WithTop ℚ)
  | [], acc => some acc
  | p :: ps, acc =>
    match solverStep dist start acc p with
    | none => none
    | some acc2 => solverLoop dist start ps acc2

/-- `tsp_solver`: exhaustive search over all permutations of the city list,
starting from `best_path = None`, `min_cost = math.inf`. -/
def tsp_solver {α : Type} [DecidableEq α] (pb : TSPProblem α) :
    Option (Option (List α) × WithTop ℚ) :=
  solverLoop pb.distances pb.initial (permutationsIt pb.cities) (none, ⊤)

/-- Pure form of the loop body's accumulator update: replace the running
minimum only on a strictly smaller cost. -/
def minStep {α : Type} (acc : Option (List α) × WithTop ℚ) (x : List α × ℚ) :
    Option (List α) × WithTop ℚ :=
  if (x.2 : WithTop ℚ) < acc.2 then (some x.1, (x.2 : WithTop ℚ)) else acc

/-- The closed tours, each paired with its cost, whose cost the solver
actually evaluates: permutations passing the start filter, closed by
appending the start city, in enumeration order. -/
def cands {α : Type} [DecidableEq α] (dist : α → α → Option ℚ) (start : α)
    (ps : List (List α)) : List (List α × ℚ) :=
  ps.filterMap (fun p =>
    if p.head? = some start then
      (tourCost dist (p ++ [start])).map (fun c => (p ++ [start], c))
    else none)

/-- The spec's independent recomputation of a tour's cost: the sum, over the
consecutive pairs of the tour, of the distance-table lookup taken strictly
in traversal direction (origin to destination). -/
def tourCostSpec {α : Type} (dist : α → α → Option ℚ) (path : List α) :
    Option ℚ :=
  (path.zip path.tail).foldr
    (fun e acc => Option.map₂ (· + ·) (dist e.1 e.2) acc) (some 0)

/-! ### Structure of the permutation enumeration -/

lemma permutationsIt_nil {α : Type} : permutationsIt ([] : List α) = [[]] :=
  rfl

lemma flatMap_congr_left {α β : Type} (f g : α → List β) :
    ∀ l : List α, (∀ a ∈ l, f a = g a) → l.flatMap f = l.flatMap g := by
  intro l
  induction l with
  | nil => intro _; rfl
  | cons x xs ih =>
    intro h
    rw [List.flatMap_cons, List.flatMap_cons, h x (List.mem_cons_self x xs),
      ih (fun a ha => h a (List.mem_cons_of_mem x ha))]

lemma permutationsIt_cons {α : Type} (x : α) (xs : List α) :
    permutationsIt (x :: xs) =
      (selections (x :: xs)).flatMap
        (fun p => (permutationsIt p.2).map (fun q => p.1 :: q)) := by
  show (selections (x :: xs)).flatMap
      (fun p => (permsAux xs.length p.2).map (fun q => p.1 :: q)) = _
  apply flatMap_congr_left
  intro p hp
  have hlen : p.2.length = xs.length := by
    have := selections_length_snd (x :: xs) p hp
    simpa using this
  rw [permutationsIt, hlen]

lemma mem_selections {α : Type} :
    ∀ (l : List α) (y : α) (ys : List α),
      (y, ys) ∈ selections l ↔ ∃ l1 l2, l = l1 ++ y :: l2 ∧ ys = l1 ++ l2 := by
  intro l
  induction l with
  | nil => intro y ys; simp [selections]
  | cons x xs ih =>
    intro y ys
    constructor
    · intro h
      simp only [selections, List.mem_cons, List.mem_map] at h
      rcases h with h | ⟨⟨a, b⟩, hab, heq⟩
      · have h1 : y = x := congrArg Prod.fst h
        have h2 : ys = xs := congrArg Prod.snd h
        exact ⟨[], xs, by simp [h1], by simp [h2]⟩
      · have h1 : a = y := congrArg Prod.fst heq
        have h2 : x :: b = ys := congrArg Prod.snd heq
        rw [h1] at hab
        obtain ⟨l1, l2, hxs, hb⟩ := (ih y b).1 hab
        refine ⟨x :: l1, l2, ?_, ?_⟩
        · rw [hxs, List.cons_append]
        · rw [← h2, hb, List.cons_append]
    · rintro ⟨l1, l2, hl, hys⟩
      cases l1 with
      | nil =>
        simp only [List.nil_append] at hl hys
        subst hys
        injection hl with h1 h2
        subst h1; subst h2
        simp [selections]
      | cons a l1 =>
        simp only [List.cons_append] at hl hys
        injection hl with h1 h2
        subst h1
        subst hys
        have hmem : (y, l1 ++ l2) ∈ selections xs :=
          (ih y (l1 ++ l2)).2 ⟨l1, l2, h2, rfl⟩
        simp only [selections, List.mem_cons, List.mem_map]
        right
        exact ⟨(y, l1 ++ l2), hmem, rfl⟩

lemma mem_permutationsIt_aux {α : Type} :
    ∀ (n : ℕ) (l : List α), l.length ≤ n →
      ∀ p : List α, p ∈ permutationsIt l ↔ p.Perm l := by
  intro n
  induction n with
  | zero =>
    intro l hl p
    have : l = [] := List.length_eq_zero.1 (Nat.le_zero.1 hl)
    subst this
    simp [permutationsIt_nil, List.perm_nil]
  | succ n ih =>
    intro l hl p
    match l with
    | [] => simp [permutationsIt_nil, List.perm_nil]
    | x :: xs =>
      rw [permutationsIt_cons]
      simp only [List.mem_flatMap, List.mem_map]
      constructor
      · rintro ⟨⟨y, ys⟩, hsel, q, hq, rfl⟩
        have hys : ys.length + 1 = (x :: xs).length :=
          selections_length_snd (x :: xs) (y, ys) hsel
        have hysn : ys.length ≤ n := by
          simp only [List.length_cons] at hys hl; omega
        have hq' : q.Perm ys := (ih ys hysn q).1 hq
        obtain ⟨l1, l2, hl12, hys⟩ := (mem_selections _ y ys).1 hsel
        rw [hl12]
        subst hys
        exact (hq'.cons y).trans List.perm_middle.symm
      · intro hp
        cases p with
        | nil => have := hp.length_eq; simp at this
        | cons y q =>
          have hy : y ∈ x :: xs := hp.mem_iff.1 (List.mem_cons_self y q)
          obtain ⟨l1, l2, hl12⟩ := List.append_of_mem hy
          have hq : q.Perm (l1 ++ l2) := by
            have : (y :: q).Perm (y :: (l1 ++ l2)) :=
              (hl12 ▸ hp).trans List.perm_middle
            exact this.cons_inv
          have hsel : (y, l1 ++ l2) ∈ selections (x :: xs) :=
            (mem_selections _ y (l1 ++ l2)).2 ⟨l1, l2, hl12, rfl⟩
          have hlen : (l1 ++ l2).length ≤ n := by
            have := selections_length_snd (x :: xs) (y, l1 ++ l2) hsel
            simp only [List.length_cons] at this hl; omega
          exact ⟨(y, l1 ++ l2), hsel, q, (ih _ hlen q).2 hq, rfl⟩

/-- Membership in the enumeration is exactly being a permutation of the
city list. -/
lemma mem_permutationsIt {α : Type} (l p : List α) :
    p ∈ permutationsIt l ↔ p.Perm l :=
  mem_permutationsIt_aux l.length l le_rfl p

lemma selections_map_fst {α : Type} (l : List α) :
    (selections l).map Prod.fst = l := by
  induction l with
  | nil => rfl
  | cons x xs ih =>
    simp only [selections, List.map_cons, List.map_map]
    congr 1

lemma selections_length {α : Type} (l : List α) :
    (selections l).length = l.length := by
  conv_rhs => rw [← selections_map_fst l]
  rw [List.length_map]

lemma length_permutationsIt_aux {α : Type} :
    ∀ (n : ℕ) (l : List α), l.length ≤ n →
      (permutationsIt l).length = l.length.factorial := by
  intro n
  induction n with
  | zero =>
    intro l hl
    have : l = [] := List.length_eq_zero.1 (Nat.le_zero.1 hl)
    subst this
    simp [permutationsIt_nil]
  | succ n ih =>
    intro l hl
    match l with
    | [] => simp [permutationsIt_nil]
    | x :: xs =>
      rw [permutationsIt_cons, List.length_flatMap]
      have hconst : ∀ b ∈ List.map
          (List.length ∘ fun p => (permutationsIt p.2).map (fun q => p.1 :: q))
          (selections (x :: xs)), b = xs.length.factorial := by
        intro b hb
        simp only [List.mem_map, Function.comp] at hb
        obtain ⟨⟨y, ys⟩, hsel, hby⟩ := hb
        have hys : ys.length + 1 = (x :: xs).length :=
          selections_length_snd _ _ hsel
        have hyslen : ys.length = xs.length := by simpa using hys
        have hle : ys.length ≤ n := by
          simp only [List.length_cons] at hl; omega
        rw [← hby, List.length_map, ih ys hle, hyslen]
      rw [List.eq_replicate_of_mem hconst, List.sum_replicate, smul_eq_mul,
        List.length_map, selections_length]
      simp [Nat.factorial_succ]

/-- The enumeration produces all `n!` permutations (with multiplicity). -/
lemma length_permutationsIt {α : Type} (l : List α) :
    (permutationsIt l).length = l.length.factorial :=
  length_permutationsIt_aux l.length l le_rfl

lemma countP_flatMap {α β : Type} (p : β → Bool) (f : α → List β) :
    ∀ l : List α, (l.flatMap f).countP p = (l.map (fun a => (f a).countP p)).sum := by
  intro l
  induction l with
  | nil => rfl
  | cons x xs ih => simp [List.flatMap_cons, List.countP_append, ih]

lemma sum_map_ite {β : Type} (S : List β) (q : β → Prop) [DecidablePred q] (c : ℕ) :
    (S.map (fun s => if q s then c else 0)).sum = S.countP (fun s => decide (q s)) * c := by
  induction S with
  | nil => simp
  | cons a S ih =>
    simp only [List.map_cons, List.sum_cons, List.countP_cons, ih]
    by_cases h : q a <;> simp [h] <;> ring

lemma countP_start_permutationsIt {α : Type} [DecidableEq α] (l : List α) (start : α) :
    (permutationsIt l).countP (fun p => decide (p.head? = some start)) =
      l.countP (fun a => decide (a = start)) * (l.length - 1).factorial := by
  cases l with
  | nil => simp [permutationsIt_nil]
  | cons x xs =>
    rw [permutationsIt_cons, countP_flatMap]
    have hmap : (selections (x :: xs)).map
          (fun s => ((permutationsIt s.2).map (fun q => s.1 :: q)).countP
            (fun p => decide (p.head? = some start)))
        = (selections (x :: xs)).map
            (fun s => if s.1 = start then xs.length.factorial else 0) := by
      apply List.map_congr_left
      intro s hs
      rw [List.countP_map]
      have hlen : s.2.length = xs.length := by
        have := selections_length_snd (x :: xs) s hs
        simpa using this
      by_cases h : s.1 = start
      · rw [if_pos h]
        have hfun : ((fun p : List α => decide (p.head? = some start)) ∘
            fun q => s.1 :: q) = fun q => true := by
          funext q; simp [Function.comp, h]
        rw [hfun, List.countP_true, length_permutationsIt, hlen]
      · rw [if_neg h]
        have hfun : ((fun p : List α => decide (p.head? = some start)) ∘
            fun q => s.1 :: q) = fun q => false := by
          funext q; simp [Function.comp, h]
        rw [hfun, List.countP_false]
        rfl
    rw [hmap, sum_map_ite]
    have hfst : (selections (x :: xs)).countP (fun s => decide (s.1 = start))
        = (x :: xs).countP (fun a => decide (a = start)) := by
      conv_rhs => rw [← selections_map_fst (x :: xs)]
      rw [List.countP_map]
      rfl
    rw [hfst]
    simp

/-! ### Cost function -/

lemma tourCostSpec_eq {α : Type} (dist : α → α → Option ℚ) :
    ∀ path : List α, tourCostSpec dist path = tourCost dist path := by
  intro path
  induction path with
  | nil => rfl
  | cons x rest ih =>
    cases rest with
    | nil => rfl
    | cons y rest2 =>
      have hspec : tourCostSpec dist (x :: y :: rest2) =
          Option.map₂ (· + ·) (dist x y) (tourCostSpec dist (y :: rest2)) := by
        simp [tourCostSpec, List.tail_cons, List.zip_cons_cons, List.foldr_cons]
      rw [hspec, ih]
      cases hxy : dist x y <;> cases hr : tourCost dist (y :: rest2) <;>
        simp [tourCost, hxy, hr, Option.map₂]

lemma tourCost_isSome {α : Type} (dist : α → α → Option ℚ) (S : List α)
    (htot : ∀ a ∈ S, ∀ b ∈ S, (dist a b).isSome) :
    ∀ path : List α, (∀ x ∈ path, x ∈ S) → (tourCost dist path).isSome := by
  intro path
  induction path with
  | nil => intro _; simp [tourCost]
  | cons x rest ih =>
    intro hsub
    cases rest with
    | nil => simp [tourCost]
    | cons y rest2 =>
      have hx : x ∈ S := hsub x (by simp)
      have hy : y ∈ S := hsub y (by simp)
      obtain ⟨c, hc⟩ := Option.isSome_iff_exists.1 (htot x hx y hy)
      obtain ⟨r, hr⟩ := Option.isSome_iff_exists.1
        (ih (fun z hz => hsub z (List.mem_cons_of_mem x hz)))
      simp [tourCost, hc, hr]

/-! ### Reducing the monadic loop to a pure fold -/

lemma solverStep_not_start {α : Type} [DecidableEq α]
    (dist : α → α → Option ℚ) (start : α) (acc : Option (List α) × WithTop ℚ)
    (p0 : α) (rest : List α) (h : p0 ≠ start) :
    solverStep dist start acc (p0 :: rest) = some acc := by
  simp [solverStep, h]

lemma solverStep_start {α : Type} [DecidableEq α]
    (dist : α → α → Option ℚ) (start : α) (acc : Option (List α) × WithTop ℚ)
    (rest : List α) (c : ℚ)
    (hc : tourCost dist (start :: rest ++ [start]) = some c) :
    solverStep dist start acc (start :: rest) =
      some (minStep acc (start :: rest ++ [start], c)) := by
  simp only [solverStep, hc, minStep]
  rw [if_neg (by simp)]
  split <;> rfl

lemma cands_cons_not_start {α : Type} [DecidableEq α]
    (dist : α → α → Option ℚ) (start : α) (p0 : α) (rest : List α)
    (ps : List (List α)) (h : p0 ≠ start) :
    cands dist start ((p0 :: rest) :: ps) = cands dist start ps := by
  simp [cands, List.filterMap_cons, h]

lemma cands_cons_start {α : Type} [DecidableEq α]
    (dist : α → α → Option ℚ) (start : α) (rest : List α)
    (ps : List (List α)) (c : ℚ)
    (hc : tourCost dist (start :: rest ++ [start]) = some c) :
    cands dist start ((start :: rest) :: ps) =
      (start :: rest ++ [start], c) :: cands dist start ps := by
  rw [List.cons_append] at hc
  simp [cands, List.filterMap_cons, hc]

lemma solverLoop_eq_foldl {α : Type} [DecidableEq α]
    (dist : α → α → Option ℚ) (start : α) :
    ∀ (ps : List (List α)) (acc : Option (List α) × WithTop ℚ),
      (∀ p ∈ ps, p ≠ []) →
      (∀ p ∈ ps, p.head? = some start →
        (tourCost dist (p ++ [start])).isSome) →
      solverLoop dist start ps acc =
        some ((cands dist start ps).foldl minStep acc) := by
  intro ps
  induction ps with
  | nil => intro acc _ _; rfl
  | cons p ps ih =>
    intro acc hne hdef
    have hp : p ≠ [] := hne p (List.mem_cons_self p ps)
    obtain ⟨p0, rest, rfl⟩ : ∃ p0 rest, p = p0 :: rest := by
      cases p with
      | nil => exact absurd rfl hp
      | cons a b => exact ⟨a, b, rfl⟩
    have hne' : ∀ q ∈ ps, q ≠ [] := fun q hq => hne q (List.mem_cons_of_mem _ hq)
    have hdef' : ∀ q ∈ ps, q.head? = some start →
        (tourCost dist (q ++ [start])).isSome :=
      fun q hq => hdef q (List.mem_cons_of_mem _ hq)
    by_cases h0 : p0 = start
    · subst h0
      obtain ⟨c, hc⟩ := Option.isSome_iff_exists.1
        (hdef (p0 :: rest) (List.mem_cons_self _ _) (by simp))
      rw [show (p0 :: rest) ++ [p0] = p0 :: rest ++ [p0] from rfl] at hc
      simp only [solverLoop, solverStep_start dist p0 acc rest c hc]
      rw [ih _ hne' hdef', cands_cons_start dist p0 rest ps c hc,
        List.foldl_cons]
    · simp only [solverLoop, solverStep_not_start dist start acc p0 rest h0]
      rw [ih _ hne' hdef', cands_cons_not_start dist start p0 rest ps h0]

/-! ### The running minimum -/

lemma foldl_minStep_char {α : Type} :
    ∀ (cs : List (List α × ℚ)) (b : Option (List α)) (m : WithTop ℚ),
      (List.foldl minStep (b, m) cs = (b, m) ∧
        ∀ x ∈ cs, m ≤ (x.2 : WithTop ℚ)) ∨
      (∃ (t : List α) (c : ℚ) (pre post : List (List α × ℚ)),
        List.foldl minStep (b, m) cs = (some t, (c : WithTop ℚ)) ∧
        cs = pre ++ (t, c) :: post ∧ (c : WithTop ℚ) < m ∧
        (∀ y ∈ pre, c < y.2) ∧ (∀ y ∈ post, c ≤ y.2)) := by
  intro cs
  induction cs with
  | nil => intro b m; left; exact ⟨rfl, by simp⟩
  | cons x cs ih =>
    intro b m
    rw [List.foldl_cons]
    by_cases hx : (x.2 : WithTop ℚ) < m
    · have hstep : minStep (b, m) x = (some x.1, (x.2 : WithTop ℚ)) := by
        simp [minStep, hx]
      rw [hstep]
      rcases ih (some x.1) (x.2 : WithTop ℚ) with ⟨heq, hall⟩ |
        ⟨t, c, pre, post, heq, hcs, hlt, hpre, hpost⟩
      · right
        refine ⟨x.1, x.2, [], cs, heq, rfl, hx, ?_, ?_⟩
        · intro y hy
          exact absurd hy (List.not_mem_nil y)
        · intro y hy
          exact WithTop.coe_le_coe.1 (hall y hy)
      · right
        refine ⟨t, c, x :: pre, post, heq, by rw [hcs, List.cons_append],
          hlt.trans hx, ?_, hpost⟩
        intro y hy
        rcases List.mem_cons.1 hy with rfl | hy'
        · exact WithTop.coe_lt_coe.1 hlt
        · exact hpre y hy'
    · have hstep : minStep (b, m) x = (b, m) := by simp [minStep, hx]
      rw [hstep]
      have hmx : m ≤ (x.2 : WithTop ℚ) := not_lt.1 hx
      rcases ih b m with ⟨heq, hall⟩ |
        ⟨t, c, pre, post, heq, hcs, hlt, hpre, hpost⟩
      · left
        refine ⟨heq, ?_⟩
        intro y hy
        rcases List.mem_cons.1 hy with rfl | hy'
        · exact hmx
        · exact hall y hy'
      · right
        refine ⟨t, c, x :: pre, post, heq, by rw [hcs, List.cons_append],
          hlt, ?_, hpost⟩
        intro y hy
        rcases List.mem_cons.1 hy with rfl | hy'
        · exact WithTop.coe_lt_coe.1 (hlt.trans_le hmx)
        · exact hpre y hy'

lemma mem_cands {α : Type} [DecidableEq α] (dist : α → α → Option ℚ)
    (start : α) (ps : List (List α)) (t : List α) (c : ℚ) :
    (t, c) ∈ cands dist start ps ↔
      ∃ p ∈ ps, p.head? = some start ∧ t = p ++ [start] ∧
        tourCost dist (p ++ [start]) = some c := by
  simp only [cands, List.mem_filterMap]
  constructor
  · rintro ⟨p, hp, hf⟩
    by_cases h : p.head? = some start
    · rw [if_pos h] at hf
      cases hcost : tourCost dist (p ++ [start]) with
      | none => rw [hcost] at hf; exact Option.noConfusion hf
      | some c' =>
        rw [hcost] at hf
        have hf' : (p ++ [start], c') = (t, c) := Option.some.inj hf
        have h1 : p ++ [start] = t := congrArg Prod.fst hf'
        have h2 : c' = c := congrArg Prod.snd hf'
        exact ⟨p, hp, h, h1.symm, by rw [hcost, h2]⟩
    · rw [if_neg h] at hf
      exact Option.noConfusion hf
  · rintro ⟨p, hp, hh, rfl, hcost⟩
    exact ⟨p, hp, by rw [if_pos hh, hcost]; rfl⟩

/-! ### Characterization of the solver on valid instances -/

lemma perms_ne_nil {α : Type} (cities : List α) (hne : cities ≠ []) :
    ∀ p ∈ permutationsIt cities, p ≠ [] := by
  intro p hp h
  subst h
  exact hne (((mem_permutationsIt cities []).1 hp).symm.eq_nil)

lemma tsp_solver_char {α : Type} [DecidableEq α] (pb : TSPProblem α)
    (hstart : pb.initial ∈ pb.cities)
    (htot : ∀ a ∈ pb.cities, ∀ b ∈ pb.cities, (pb.distances a b).isSome) :
    ∃ (t : List α) (c : ℚ) (pre post : List (List α × ℚ)),
      tsp_solver pb = some (some t, (c : WithTop ℚ)) ∧
      cands pb.distances pb.initial (permutationsIt pb.cities) =
        pre ++ (t, c) :: post ∧
      (∀ y ∈ pre, c < y.2) ∧ (∀ y ∈ post, c ≤ y.2) := by
  have hne : pb.cities ≠ [] := fun h => by rw [h] at hstart; simp at hstart
  have hnil := perms_ne_nil pb.cities hne
  have hdef : ∀ p ∈ permutationsIt pb.cities, p.head? = some pb.initial →
      (tourCost pb.distances (p ++ [pb.initial])).isSome := by
    intro p hp _
    apply tourCost_isSome pb.distances pb.cities htot
    intro z hz
    rcases List.mem_append.1 hz with hz | hz
    · exact ((mem_permutationsIt pb.cities p).1 hp).subset hz
    · rw [List.mem_singleton.1 hz]; exact hstart
  have hred := solverLoop_eq_foldl pb.distances pb.initial
    (permutationsIt pb.cities) (none, ⊤) hnil hdef
  have hsp : (pb.initial :: pb.cities.erase pb.initial) ∈
      permutationsIt pb.cities :=
    (mem_permutationsIt _ _).2 (List.perm_cons_erase hstart).symm
  obtain ⟨c0, hc0⟩ := Option.isSome_iff_exists.1 (hdef _ hsp rfl)
  have hmem0 : (pb.initial :: pb.cities.erase pb.initial ++ [pb.initial], c0) ∈
      cands pb.distances pb.initial (permutationsIt pb.cities) :=
    (mem_cands _ _ _ _ _).2 ⟨_, hsp, rfl, rfl, hc0⟩
  rcases foldl_minStep_char
      (cands pb.distances pb.initial (permutationsIt pb.cities)) none ⊤ with
    ⟨heq, hall⟩ | ⟨t, c, pre, post, heq, hcs, hlt, hpre, hpost⟩
  · exact absurd (hall _ hmem0) (by simp)
  · refine ⟨t, c, pre, post, ?_, hcs, hpre, hpost⟩
    rw [tsp_solver, hred, heq]

/-! ### Claims -/

/-- C1: for every problem instance with at least 2 distinct cities, a
fully-defined distance table and a start city in the city list, the cost
returned by `tsp_solver` is minimal: no closed tour obtained from a
permutation of the cities starting with the start city (with the start city
appended) has a total cost strictly lower than the returned cost. -/
theorem C1_tsp_solver_minimal {α : Type} [DecidableEq α] (pb : TSPProblem α)
    (hnd : pb.cities.Nodup) (hn : 2 ≤ pb.cities.length)
    (hstart : pb.initial ∈ pb.cities)
    (htot : ∀ a ∈ pb.cities, ∀ b ∈ pb.cities, (pb.distances a b).isSome) :
    ∃ (t : List α) (c : ℚ),
      tsp_solver pb = some (some t, (c : WithTop ℚ)) ∧
      ∀ p : List α, p.Perm pb.cities → p.head? = some pb.initial →
        ∀ cp : ℚ, tourCost pb.distances (p ++ [pb.initial]) = some cp →
          c ≤ cp := by
  obtain ⟨t, c, pre, post, hsol, hcs, hpre, hpost⟩ := tsp_solver_char pb hstart htot
  refine ⟨t, c, hsol, ?_⟩
  intro p hperm hhead cp hcp
  have hpmem : p ∈ permutationsIt pb.cities := (mem_permutationsIt _ _).2 hperm
  have hmem : (p ++ [pb.initial], cp) ∈
      cands pb.distances pb.initial (permutationsIt pb.cities) :=
    (mem_cands _ _ _ _ _).2 ⟨p, hpmem, hhead, rfl, hcp⟩
  rw [hcs] at hmem
  rcases List.mem_append.1 hmem with h | h
  · exact le_of_lt (hpre _ h)
  · rcases List.mem_cons.1 h with h | h
    · exact le_of_eq (congrArg Prod.snd h).symm
    · exact hpost _ h

/-- C1 witness: a concrete 3-city instance satisfying every hypothesis. -/
theorem C1_witness :
    ([0, 1, 2] : List ℕ).Nodup ∧ 2 ≤ ([0, 1, 2] : List ℕ).length ∧
    0 ∈ ([0, 1, 2] : List ℕ) ∧
    (∃ (t : List ℕ) (c : ℚ),
      tsp_solver (TSPProblem.mk [0, 1, 2] (fun _ _ => some 1) 0) =
        some (some t, (c : WithTop ℚ)) ∧
      ∀ p : List ℕ, p.Perm [0, 1, 2] → p.head? = some 0 →
        ∀ cp : ℚ, tourCost (fun _ _ => some 1) (p ++ [0]) = some cp →
          c ≤ cp) :=
  ⟨by decide, by decide, by decide,
    C1_tsp_solver_minimal (TSPProblem.mk [0, 1, 2] (fun _ _ => some 1) 0)
      (by decide) (by decide) (by decide) (fun a _ b _ => rfl)⟩

/-- C2: on every valid instance with n ≥ 2 distinct cities the returned tour
has length n+1, starts and ends with the start city, and contains every city
exactly once among its first n elements. -/
theorem C2_tour_structure {α : Type} [DecidableEq α] (pb : TSPProblem α)
    (hnd : pb.cities.Nodup) (hn : 2 ≤ pb.cities.length)
    (hstart : pb.initial ∈ pb.cities)
    (htot : ∀ a ∈ pb.cities, ∀ b ∈ pb.cities, (pb.distances a b).isSome) :
    ∃ (t : List α) (c : ℚ),
      tsp_solver pb = some (some t, (c : WithTop ℚ)) ∧
      t.length = pb.cities.length + 1 ∧
      t.head? = some pb.initial ∧
      t.getLast? = some pb.initial ∧
      ∀ x ∈ pb.cities, (t.take pb.cities.length).count x = 1 := by
  obtain ⟨t, c, pre, post, hsol, hcs, hpre, hpost⟩ := tsp_solver_char pb hstart htot
  have hmem : (t, c) ∈ cands pb.distances pb.initial (permutationsIt pb.cities) := by
    rw [hcs]
    exact List.mem_append.2 (Or.inr (List.mem_cons_self _ _))
  obtain ⟨p, hp, hhead, rfl, hcost⟩ := (mem_cands _ _ _ _ _).1 hmem
  have hperm : p.Perm pb.cities := (mem_permutationsIt _ _).1 hp
  have hplen : p.length = pb.cities.length := hperm.length_eq
  refine ⟨p ++ [pb.initial], c, hsol, ?_, ?_, ?_, ?_⟩
  · simp [hplen]
  · rw [List.head?_append, hhead]
    rfl
  · exact List.getLast?_concat p
  · intro x hx
    rw [← hplen, List.take_left, hperm.count_eq x]
    exact List.count_eq_one_of_mem hnd hx

/-- C2 witness: a concrete 3-city instance satisfying every hypothesis. -/
theorem C2_witness :
    ([0, 1, 2] : List ℕ).Nodup ∧ 2 ≤ ([0, 1, 2] : List ℕ).length ∧
    0 ∈ ([0, 1, 2] : List ℕ) ∧
    (∃ (t : List ℕ) (c : ℚ),
      tsp_solver (TSPProblem.mk [0, 1, 2] (fun _ _ => some 1) 0) =
        some (some t, (c : WithTop ℚ)) ∧
      t.length = [0, 1, 2].length + 1 ∧
      t.head? = some 0 ∧
      t.getLast? = some 0 ∧
      ∀ x ∈ [0, 1, 2], (t.take [0, 1, 2].length).count x = 1) :=
  ⟨by decide, by decide, by decide,
    C2_tour_structure (TSPProblem.mk [0, 1, 2] (fun _ _ => some 1) 0)
      (by decide) (by decide) (by decide) (fun a _ b _ => rfl)⟩

/-- C3: on every valid instance the returned cost equals the sum of the
distance-table lookups along the returned tour's consecutive pairs, each
lookup taken strictly in traversal direction (the table may be
asymmetric). -/
theorem C3_cost_recomputation {α : Type} [DecidableEq α] (pb : TSPProblem α)
    (hnd : pb.cities.Nodup) (hn : 2 ≤ pb.cities.length)
    (hstart : pb.initial ∈ pb.cities)
    (htot : ∀ a ∈ pb.cities, ∀ b ∈ pb.cities, (pb.distances a b).isSome) :
    ∃ (t : List α) (c : ℚ),
      tsp_solver pb = some (some t, (c : WithTop ℚ)) ∧
      tourCostSpec pb.distances t = some c := by
  obtain ⟨t, c, pre, post, hsol, hcs, hpre, hpost⟩ := tsp_solver_char pb hstart htot
  have hmem : (t, c) ∈ cands pb.distances pb.initial (permutationsIt pb.cities) := by
    rw [hcs]
    exact List.mem_append.2 (Or.inr (List.mem_cons_self _ _))
  obtain ⟨p, hp, hhead, rfl, hcost⟩ := (mem_cands _ _ _ _ _).1 hmem
  refine ⟨p ++ [pb.initial], c, hsol, ?_⟩
  rw [tourCostSpec_eq]
  exact hcost

/-- C3 witness: a concrete 3-city instance with an asymmetric table. -/
theorem C3_witness :
    ([0, 1, 2] : List ℕ).Nodup ∧ 2 ≤ ([0, 1, 2] : List ℕ).length ∧
    0 ∈ ([0, 1, 2] : List ℕ) ∧
    (∃ (t : List ℕ) (c : ℚ),
      tsp_solver (TSPProblem.mk [0, 1, 2]
          (fun a b : ℕ => some ((a : ℚ) + 2 * (b : ℚ))) 0) =
        some (some t, (c : WithTop ℚ)) ∧
      tourCostSpec (fun a b : ℕ => some ((a : ℚ) + 2 * (b : ℚ))) t = some c) :=
  ⟨by decide, by decide, by decide,
    C3_cost_recomputation
      (TSPProblem.mk [0, 1, 2] (fun a b : ℕ => some ((a : ℚ) + 2 * (b : ℚ))) 0)
      (by decide) (by decide) (by decide) (fun a _ b _ => rfl)⟩

/-- C4: the solver breaks ties by enumeration order: the returned tour
occurs in the candidate sequence, every candidate strictly before it costs
strictly more, and every candidate after it costs at least as much — so the
first tour achieving the minimum is the one kept (strict `<` update). -/
theorem C4_tie_break_first {α : Type} [DecidableEq α] (pb : TSPProblem α)
    (hstart : pb.initial ∈ pb.cities)
    (htot : ∀ a ∈ pb.cities, ∀ b ∈ pb.cities, (pb.distances a b).isSome) :
    ∃ (t : List α) (c : ℚ) (pre post : List (List α × ℚ)),
      tsp_solver pb = some (some t, (c : WithTop ℚ)) ∧
      cands pb.distances pb.initial (permutationsIt pb.cities) =
        pre ++ (t, c) :: post ∧
      (∀ y ∈ pre, c < y.2) ∧ (∀ y ∈ post, c ≤ y.2) :=
  tsp_solver_char pb hstart htot

/-- C4 witness: a concrete 3-city instance (all tours tie at cost 3, so the
first enumerated candidate must be kept). -/
theorem C4_witness :
    0 ∈ ([0, 1, 2] : List ℕ) ∧
    (∃ (t : List ℕ) (c : ℚ) (pre post : List (List ℕ × ℚ)),
      tsp_solver (TSPProblem.mk [0, 1, 2] (fun _ _ => some 1) 0) =
        some (some t, (c : WithTop ℚ)) ∧
      cands (fun _ _ => some 1) 0 (permutationsIt [0, 1, 2]) =
        pre ++ (t, c) :: post ∧
      (∀ y ∈ pre, c < y.2) ∧ (∀ y ∈ post, c ≤ y.2)) :=
  ⟨by decide,
    C4_tie_break_first (TSPProblem.mk [0, 1, 2] (fun _ _ => some 1) 0)
      (by decide) (fun a _ b _ => rfl)⟩

/-- C5 counterexample: with an empty city list the solver does not return
`(None, infinity)` — the result is the error value, not that pair. -/
theorem C5_counterexample :
    tsp_solver (TSPProblem.mk ([] : List ℕ) (fun _ _ => some 0) 0) ≠
      some (none, (⊤ : WithTop ℚ)) := by decide

/-- C5 amended: with an empty city list `itertools.permutations` still
yields one permutation — the empty tuple — so the loop body runs once and
`perm[0]` raises `IndexError`; the solve aborts with an uncaught exception
(modelled `none`) instead of returning `(None, infinity)`. -/
theorem C5_empty_cities_error {α : Type} [DecidableEq α]
    (dist : α → α → Option ℚ) (start : α) :
    tsp_solver (TSPProblem.mk [] dist start) = none := rfl

/-- C6: when the start city is absent from the (non-empty) city list, every
permutation fails the start filter, so the solver returns
`(None, infinity)` without raising any error. -/
theorem C6_start_absent {α : Type} [DecidableEq α] (pb : TSPProblem α)
    (hne : pb.cities ≠ []) (habs : pb.initial ∉ pb.cities) :
    tsp_solver pb = some (none, (⊤ : WithTop ℚ)) := by
  have hnostart : ∀ p ∈ permutationsIt pb.cities,
      ¬ p.head? = some pb.initial := by
    intro p hp hcond
    have hperm := (mem_permutationsIt _ _).1 hp
    cases p with
    | nil => exact Option.noConfusion hcond
    | cons a rest =>
      have ha : a = pb.initial := Option.some.inj hcond
      exact habs (ha ▸ hperm.subset (List.mem_cons_self a rest))
  have hdef : ∀ p ∈ permutationsIt pb.cities, p.head? = some pb.initial →
      (tourCost pb.distances (p ++ [pb.initial])).isSome :=
    fun p hp h => absurd h (hnostart p hp)
  rw [tsp_solver, solverLoop_eq_foldl pb.distances pb.initial
    (permutationsIt pb.cities) (none, ⊤) (perms_ne_nil _ hne) hdef]
  have hcands : cands pb.distances pb.initial (permutationsIt pb.cities) = [] := by
    simp only [cands]
    rw [List.filterMap_eq_nil]
    intro p hp
    rw [if_neg (hnostart p hp)]
  rw [hcands]
  rfl

/-- C6 witness: two cities, start city 0 absent from the list. -/
theorem C6_witness :
    ([1, 2] : List ℕ) ≠ [] ∧ (0 : ℕ) ∉ ([1, 2] : List ℕ) ∧
    tsp_solver (TSPProblem.mk [1, 2] (fun _ _ => some 1) 0) =
      some (none, (⊤ : WithTop ℚ)) :=
  ⟨by decide, by decide,
    C6_start_absent (TSPProblem.mk [1, 2] (fun _ _ => some 1) 0)
      (by decide) (by decide)⟩

/-- C7: for every non-empty partial route drawn from the city list,
`actions` returns exactly the cities not occurring in the route. -/
theorem C7_actions_spec {α : Type} [DecidableEq α] (pb : TSPProblem α)
    (state : List α) (hne : state ≠ []) (hsub : ∀ x ∈ state, x ∈ pb.cities) :
    ∀ c, c ∈ pb.actions state ↔ (c ∈ pb.cities ∧ c ∉ state) := by
  intro c
  simp [TSPProblem.actions, List.mem_filter]

/-- C7 witness: route `[0]` inside the city list `[0, 1]`. -/
theorem C7_witness :
    ([0] : List ℕ) ≠ [] ∧ (∀ x ∈ ([0] : List ℕ), x ∈ ([0, 1] : List ℕ)) ∧
    ∀ c, c ∈ (TSPProblem.mk [0, 1] (fun _ _ => some 1) 0).actions [0] ↔
      (c ∈ ([0, 1] : List ℕ) ∧ c ∉ ([0] : List ℕ)) :=
  ⟨by decide, by decide,
    C7_actions_spec (TSPProblem.mk [0, 1] (fun _ _ => some 1) 0) [0]
      (by decide) (by decide)⟩

/-- C8: with n distinct cities and the start city in the list, exactly
(n-1)! of the enumerated permutations pass the start filter — reversed
tours counted separately, no deduplication. -/
theorem C8_candidate_count {α : Type} [DecidableEq α] (pb : TSPProblem α)
    (hnd : pb.cities.Nodup) (hstart : pb.initial ∈ pb.cities) :
    (permutationsIt pb.cities).countP
      (fun p => decide (p.head? = some pb.initial)) =
      (pb.cities.length - 1).factorial := by
  rw [countP_start_permutationsIt]
  have hcount : pb.cities.countP (fun a => decide (a = pb.initial)) =
      pb.cities.count pb.initial := rfl
  rw [hcount, List.count_eq_one_of_mem hnd hstart, one_mul]

/-- C8 witness: 3 distinct cities, so (3-1)! = 2 candidates. -/
theorem C8_witness :
    ([0, 1, 2] : List ℕ).Nodup ∧ 0 ∈ ([0, 1, 2] : List ℕ) ∧
    (permutationsIt ([0, 1, 2] : List ℕ)).countP
      (fun p => decide (p.head? = some 0)) =
      (([0, 1, 2] : List ℕ).length - 1).factorial :=
  ⟨by decide, by decide,
    C8_candidate_count (TSPProblem.mk [0, 1, 2] (fun _ _ => some 1) 0)
      (by decide) (by decide)⟩

/-- C9: the solver is deterministic — two invocations on value-equal inputs
(city list, distance table, start city) return value-equal results. -/
theorem C9_deterministic {α : Type} [DecidableEq α]
    (cities1 cities2 : List α) (dist1 dist2 : α → α → Option ℚ)
    (start1 start2 : α) (hc : cities1 = cities2) (hd : dist1 = dist2)
    (hi : start1 = start2) :
    tsp_solver (TSPProblem.mk cities1 dist1 start1) =
      tsp_solver (TSPProblem.mk cities2 dist2 start2) := by
  subst hc; subst hd; subst hi; rfl

/-- C9 witness: two identical concrete invocations. -/
theorem C9_witness :
    ([0, 1] : List ℕ) = [0, 1] ∧
    tsp_solver (TSPProblem.mk ([0, 1] : List ℕ) (fun _ _ => some 1) 0) =
      tsp_solver (TSPProblem.mk ([0, 1] : List ℕ) (fun _ _ => some 1) 0) :=
  ⟨rfl, C9_deterministic [0, 1] [0, 1] (fun _ _ => some 1) (fun _ _ => some 1)
    0 0 rfl rfl rfl⟩

/-- C10: with city list exactly `[start]` and a defined self-distance, the
solver returns the two-element tour `[start, start]` whose cost is that
self-distance entry. -/
theorem C10_single_city {α : Type} [DecidableEq α] (start : α)
    (dist : α → α → Option ℚ) (d : ℚ) (hd : dist start start = some d) :
    tsp_solver (TSPProblem.mk [start] dist start) =
      some (some [start, start], (d : WithTop ℚ)) := by
  have hperm : permutationsIt [start] = [[start]] := by
    rw [permutationsIt_cons]
    simp [selections, permutationsIt_nil]
  have hc : tourCost dist (start :: ([] : List α) ++ [start]) = some d := by
    show tourCost dist [start, start] = some d
    simp [tourCost, hd]
  show solverLoop dist start (permutationsIt [start]) (none, ⊤) = _
  rw [hperm]
  simp only [solverLoop,
    solverStep_start dist start (none, ⊤) ([] : List α) d hc, minStep]
  rw [if_pos (WithTop.coe_lt_top d)]
  rfl

/-- C10 witness: a single city 0 with self-distance 5. -/
theorem C10_witness :
    (fun _ _ => some (5 : ℚ)) 0 0 = some (5 : ℚ) ∧
    tsp_solver (TSPProblem.mk [0] (fun _ _ => some (5 : ℚ)) (0 : ℕ)) =
      some (some [0, 0], ((5 : ℚ) : WithTop ℚ)) :=
  ⟨rfl, C10_single_city 0 (fun _ _ => some 5) 5 rfl⟩
